import Mathlib

/-!
Verification of the persistence layer of the `lesbians` cataloging
application (`src/db.rs`, `src/item.rs`, `src/user.rs`).

Shallow embedding conventions:
* `u64` is modelled as `Nat`, with explicit `< 2 ^ 64` bounds where the
  fixed width matters; byte strings (`Vec<u8>`, `IVec`, `[u8; 8]`) are
  `List Nat`.
* `id.to_ne_bytes()` / `u64::from_ne_bytes` (db.rs:22-31) use the host's
  native byte order; the application's target hosts (x86-64 / aarch64) are
  little-endian, so native order is modelled as little-endian
  (least-significant byte first).
* `failure::Fallible<T>` is `Except String T`.
* A `sled::Tree` is an ordered byte-keyed table; it is modelled as an
  association list sorted strictly by the byte-lexicographic order `lexLt`
  (sled compares keys as byte slices).  `get` / `set` / `del` / `get_gt`
  are `treeGet` / `treeSet` / `treeDel` / `treeGetGt`.
* `serde_cbor` is an external exact codec: the serialized blob of a record
  is modelled as the record's serializable projection itself (`ItemBlob`
  for `Item` — every field except the `#[serde(skip)] id`; a `User` blob
  is the `User` value itself, since all of its fields are serialized).
  `#[serde(default)]` / `skip_serializing_if` round-trip exactly and are
  invisible at this level of modelling.
* The tantivy full-text index is a derived projection never read back by
  `save` / `load` / `iter` / `dump` / `restore`; the `index` component of
  `SaveData` and the index-writer steps of `Db::save` are outside the
  claims verified here and are not modelled.
-/

/-! ## Identifier codec (db.rs:22-31) -/

/-- Little-endian byte decomposition: `toBytesAux n x` is the `n`
least-significant base-256 digits of `x`, least significant first.
`toBytesAux 8` models `u64::to_ne_bytes` on a little-endian host. -/
def toBytesAux : Nat → Nat → List Nat
  | 0, _ => []
  | n + 1, x => (x % 256) :: toBytesAux n (x / 256)

/-- Inverse base-256 recomposition (`u64::from_ne_bytes`, little-endian
host). -/
def fromBytesAux : List Nat → Nat
  | [] => 0
  | b :: bs => b + 256 * fromBytesAux bs

/-- `id_to_bytes` (db.rs:22-24): `id.to_ne_bytes()`, native order =
little-endian on the target hosts. -/
def id_to_bytes (id : Nat) : List Nat :=
  toBytesAux 8 id

/-- `id_to_u64` (db.rs:26-31): `ensure!(id.len() == 8, ...)` then
`u64::from_ne_bytes`.  The length check is the only validation. -/
def id_to_u64 (id : List Nat) : Except String Nat :=
  if id.length = 8 then .ok (fromBytesAux id) else .error "row ID is incorrect length"

theorem toBytesAux_length (n x : Nat) : (toBytesAux n x).length = n := by
  induction n generalizing x with
  | zero => rfl
  | succ n ih => simp [toBytesAux, ih]

theorem id_to_bytes_length (id : Nat) : (id_to_bytes id).length = 8 :=
  toBytesAux_length 8 id

theorem fromBytesAux_toBytesAux (n x : Nat) :
    fromBytesAux (toBytesAux n x) = x % 256 ^ n := by
  induction n generalizing x with
  | zero => simp [toBytesAux, fromBytesAux, Nat.mod_one]
  | succ n ih =>
    simp only [toBytesAux, fromBytesAux, ih]
    rw [pow_succ']
    exact (Nat.mod_mul).symm

theorem id_to_u64_id_to_bytes (x : Nat) (hx : x < 2 ^ 64) :
    id_to_u64 (id_to_bytes x) = .ok x := by
  have h8 : (id_to_bytes x).length = 8 := id_to_bytes_length x
  have h : fromBytesAux (toBytesAux 8 x) = x % 256 ^ 8 := fromBytesAux_toBytesAux 8 x
  have hx' : x % 256 ^ 8 = x := Nat.mod_eq_of_lt (by norm_num at hx ⊢; omega)
  rw [id_to_u64, if_pos h8, id_to_bytes, h, hx']

theorem id_to_bytes_injOn {x y : Nat} (hx : x < 2 ^ 64) (hy : y < 2 ^ 64)
    (h : id_to_bytes x = id_to_bytes y) : x = y := by
  have := congrArg fromBytesAux h
  rw [id_to_bytes, id_to_bytes, fromBytesAux_toBytesAux, fromBytesAux_toBytesAux] at this
  have h256 : (256 : Nat) ^ 8 = 2 ^ 64 := by norm_num
  rwa [h256, Nat.mod_eq_of_lt hx, Nat.mod_eq_of_lt hy] at this

/-! ## Byte-lexicographic order on keys

sled orders keys as byte slices: elementwise comparison, a strict prefix
sorting before its extensions. -/

/-- Strict byte-lexicographic order on byte strings, as used by sled for
its key space. -/
def lexLt : List Nat → List Nat → Bool
  | _, [] => false
  | [], _ :: _ => true
  | a :: as, b :: bs => if a < b then true else if b < a then false else lexLt as bs

theorem lexLt_irrefl (l : List Nat) : lexLt l l = false := by
  induction l with
  | nil => rfl
  | cons a as ih => simp [lexLt, ih]

theorem lexLt_trans : ∀ {a b c : List Nat},
    lexLt a b = true → lexLt b c = true → lexLt a c = true
  | _, _, [], _, hbc => by simp [lexLt] at hbc
  | a, [], _ :: _, hab, _ => by
    cases a with
    | nil => rfl
    | cons x xs => simp [lexLt] at hab
  | [], _ :: _, _ :: _, _, _ => rfl
  | x :: xs, y :: ys, z :: zs, hab, hbc => by
    simp only [lexLt] at hab hbc ⊢
    split at hab
    · split at hbc
      · simp; omega
      · split at hbc
        · exact absurd hbc (by simp)
        · have : x < z := by omega
          simp [this]
    · split at hab
      · exact absurd hab (by simp)
      · split at hbc
        · have : x < z := by omega
          simp [this]
        · split at hbc
          · exact absurd hbc (by simp)
          · have hxz : ¬ x < z := by omega
            have hzx : ¬ z < x := by omega
            simp [hxz, hzx]
            exact lexLt_trans hab hbc

theorem lexLt_asymm : ∀ {a b : List Nat}, lexLt a b = true → lexLt b a = false
  | _, [], hab => by simp [lexLt] at hab
  | [], _ :: _, _ => rfl
  | x :: xs, y :: ys, hab => by
    simp only [lexLt] at hab ⊢
    split at hab
    · have h1 : ¬ y < x := by omega
      have h2 : x < y := by assumption
      simp [h1, h2]
    · split at hab
      · exact absurd hab (by simp)
      · have h1 : ¬ y < x := by omega
        have h2 : ¬ x < y := by assumption
        simp [h1, h2]
        exact lexLt_asymm hab

theorem lexLt_connex : ∀ {a b : List Nat}, a ≠ b →
    lexLt a b = true ∨ lexLt b a = true
  | [], [], h => absurd rfl h
  | [], _ :: _, _ => Or.inl rfl
  | _ :: _, [], _ => Or.inr rfl
  | x :: xs, y :: ys, h => by
    rcases Nat.lt_trichotomy x y with hlt | heq | hgt
    · exact Or.inl (by simp [lexLt, hlt])
    · subst heq
      have hne : xs ≠ ys := fun hh => h (by rw [hh])
      rcases lexLt_connex hne with h1 | h1
      · exact Or.inl (by simp [lexLt, h1])
      · exact Or.inr (by simp [lexLt, h1])
    · exact Or.inr (by simp [lexLt, hgt])

theorem lexLt_nil_of_ne_nil {l : List Nat} (h : l ≠ []) : lexLt [] l = true := by
  cases l with
  | nil => exact absurd rfl h
  | cons a as => rfl

/-! ## Ordered table store (sled `Tree`, external collaborator)

A named tree maps byte keys to values; keys are kept strictly sorted by
`lexLt`.  `treeGetGt` is sled's `get_gt`: the first entry whose key is
strictly greater than the probe. -/

abbrev SledTree (α : Type) : Type := List (List Nat × α)

def treeGet {α : Type} (t : SledTree α) (k : List Nat) : Option α :=
  (List.find? (fun e => decide (e.1 = k)) t).map Prod.snd

def treeSet {α : Type} : SledTree α → List Nat → α → SledTree α
  | [], k, v => [(k, v)]
  | e :: t, k, v =>
    if lexLt k e.1 then (k, v) :: e :: t
    else if k = e.1 then (k, v) :: t
    else e :: treeSet t k v

def treeDel {α : Type} : SledTree α → List Nat → SledTree α
  | [], _ => []
  | e :: t, k => if e.1 = k then t else e :: treeDel t k

def treeGetGt {α : Type} (t : SledTree α) (k : List Nat) : Option (List Nat × α) :=
  List.find? (fun e => lexLt k e.1) t

/-- The sortedness invariant sled maintains on every tree's key space. -/
def TreeSorted {α : Type} (t : SledTree α) : Prop :=
  List.Pairwise (fun a b => lexLt a.1 b.1 = true) t

theorem treeGet_nil {α : Type} (k : List Nat) : treeGet ([] : SledTree α) k = none := rfl

theorem treeGet_cons {α : Type} (e : List Nat × α) (t : SledTree α) (k : List Nat) :
    treeGet (e :: t) k = if e.1 = k then some e.2 else treeGet t k := by
  by_cases h : e.1 = k
  · simp [treeGet, h]
  · simp [treeGet, h]

theorem treeGet_treeSet_self {α : Type} (t : SledTree α) (k : List Nat) (v : α) :
    treeGet (treeSet t k v) k = some v := by
  induction t with
  | nil => simp [treeSet, treeGet]
  | cons e t ih =>
    rw [treeSet]
    by_cases h1 : lexLt k e.1
    · rw [if_pos h1, treeGet_cons]
      simp
    · rw [if_neg h1]
      by_cases h2 : k = e.1
      · rw [if_pos h2, treeGet_cons]
        simp
      · rw [if_neg h2, treeGet_cons, if_neg (fun hh => h2 hh.symm)]
        exact ih

theorem treeGet_treeSet_ne {α : Type} (t : SledTree α) (k k' : List Nat) (v : α)
    (hne : k' ≠ k) : treeGet (treeSet t k v) k' = treeGet t k' := by
  have hkk : ¬ k = k' := fun hh => hne hh.symm
  induction t with
  | nil => simp [treeSet, treeGet_cons, treeGet_nil, hkk]
  | cons e t ih =>
    rw [treeSet]
    by_cases h1 : lexLt k e.1
    · rw [if_pos h1, treeGet_cons, if_neg hkk]
    · rw [if_neg h1]
      by_cases h2 : k = e.1
      · rw [if_pos h2, treeGet_cons, if_neg hkk, treeGet_cons, if_neg (h2 ▸ hkk)]
      · rw [if_neg h2, treeGet_cons, treeGet_cons]
        by_cases h3 : e.1 = k'
        · rw [if_pos h3, if_pos h3]
        · rw [if_neg h3, if_neg h3]
          exact ih

theorem treeGet_treeDel_self {α : Type} (t : SledTree α) (k : List Nat)
    (ht : TreeSorted t) : treeGet (treeDel t k) k = none := by
  induction t with
  | nil => rfl
  | cons e t ih =>
    rw [TreeSorted, List.pairwise_cons] at ht
    rw [treeDel]
    by_cases h1 : e.1 = k
    · rw [if_pos h1, treeGet]
      have hnone : List.find? (fun e => decide (e.1 = k)) t = none := by
        rw [List.find?_eq_none]
        intro x hx
        have hgt := ht.1 x hx
        simp only [decide_eq_true_eq]
        intro hh
        rw [hh, h1] at hgt
        have hirr : lexLt k k = false := lexLt_irrefl k
        rw [hirr] at hgt
        exact absurd hgt (by simp)
      rw [hnone]
      rfl
    · rw [if_neg h1, treeGet_cons, if_neg h1]
      exact ih ht.2

theorem treeGet_treeDel_ne {α : Type} (t : SledTree α) (k k' : List Nat)
    (hne : k' ≠ k) : treeGet (treeDel t k) k' = treeGet t k' := by
  induction t with
  | nil => rfl
  | cons e t ih =>
    rw [treeDel]
    by_cases h1 : e.1 = k
    · rw [if_pos h1, treeGet_cons, if_neg (fun hh => hne (hh.symm.trans h1))]
    · rw [if_neg h1, treeGet_cons, treeGet_cons]
      by_cases h3 : e.1 = k'
      · rw [if_pos h3, if_pos h3]
      · rw [if_neg h3, if_neg h3]
        exact ih

theorem mem_treeSet {α : Type} {t : SledTree α} {k : List Nat} {v : α}
    {x : List Nat × α} (hx : x ∈ treeSet t k v) : x ∈ t ∨ x = (k, v) := by
  induction t with
  | nil => simpa [treeSet] using hx
  | cons e t ih =>
    rw [treeSet] at hx
    by_cases h1 : lexLt k e.1
    · rw [if_pos h1] at hx
      rcases List.mem_cons.mp hx with h | h
      · exact Or.inr h
      · exact Or.inl h
    · rw [if_neg h1] at hx
      by_cases h2 : k = e.1
      · rw [if_pos h2] at hx
        rcases List.mem_cons.mp hx with h | h
        · exact Or.inr h
        · exact Or.inl (List.mem_cons_of_mem e h)
      · rw [if_neg h2] at hx
        rcases List.mem_cons.mp hx with h | h
        · exact Or.inl (by rw [h]; exact List.mem_cons_self e t)
        · rcases ih h with h3 | h3
          · exact Or.inl (List.mem_cons_of_mem e h3)
          · exact Or.inr h3

theorem treeSorted_treeSet {α : Type} {t : SledTree α} (k : List Nat) (v : α)
    (ht : TreeSorted t) : TreeSorted (treeSet t k v) := by
  induction t with
  | nil => simp [treeSet, TreeSorted]
  | cons e t ih =>
    rw [TreeSorted, List.pairwise_cons] at ht
    rw [treeSet]
    by_cases h1 : lexLt k e.1
    · rw [if_pos h1]
      rw [TreeSorted, List.pairwise_cons]
      refine ⟨?_, List.pairwise_cons.mpr ht⟩
      intro x hx
      rcases List.mem_cons.mp hx with h | h
      · rw [h]
        exact h1
      · exact lexLt_trans h1 (ht.1 x h)
    · rw [if_neg h1]
      by_cases h2 : k = e.1
      · rw [if_pos h2]
        rw [TreeSorted, List.pairwise_cons]
        exact ⟨fun x hx => h2 ▸ ht.1 x hx, ht.2⟩
      · rw [if_neg h2]
        rw [TreeSorted, List.pairwise_cons]
        refine ⟨?_, ih ht.2⟩
        intro x hx
        rcases mem_treeSet hx with h | h
        · exact ht.1 x h
        · rcases lexLt_connex h2 with hc | hc
          · exact absurd hc (by simp [h1])
          · rw [h]
            exact hc

theorem mem_treeDel {α : Type} {t : SledTree α} {k : List Nat}
    {x : List Nat × α} (hx : x ∈ treeDel t k) : x ∈ t := by
  induction t with
  | nil => simp [treeDel] at hx
  | cons e t ih =>
    rw [treeDel] at hx
    by_cases h1 : e.1 = k
    · rw [if_pos h1] at hx
      exact List.mem_cons_of_mem e hx
    · rw [if_neg h1] at hx
      rcases List.mem_cons.mp hx with h | h
      · rw [h]
        exact List.mem_cons_self e t
      · exact List.mem_cons_of_mem e (ih h)

theorem treeSorted_treeDel {α : Type} {t : SledTree α} (k : List Nat)
    (ht : TreeSorted t) : TreeSorted (treeDel t k) := by
  induction t with
  | nil => exact ht
  | cons e t ih =>
    rw [TreeSorted, List.pairwise_cons] at ht
    rw [treeDel]
    by_cases h1 : e.1 = k
    · rw [if_pos h1]
      exact ht.2
    · rw [if_neg h1]
      rw [TreeSorted, List.pairwise_cons]
      exact ⟨fun x hx => ht.1 x (mem_treeDel hx), ih ht.2⟩

theorem treeSet_perm_fresh {α : Type} {t : SledTree α} (k : List Nat) (v : α)
    (hk : treeGet t k = none) : List.Perm (treeSet t k v) ((k, v) :: t) := by
  induction t with
  | nil => simp [treeSet]
  | cons e t ih =>
    rw [treeGet_cons] at hk
    by_cases h3 : e.1 = k
    · rw [if_pos h3] at hk
      exact absurd hk (by simp)
    · rw [if_neg h3] at hk
      rw [treeSet]
      by_cases h1 : lexLt k e.1
      · rw [if_pos h1]
      · rw [if_neg h1, if_neg (fun hh => h3 hh.symm)]
        exact List.Perm.trans ((ih hk).cons e) (List.Perm.swap (k, v) e t)

/-! ## Record types (item.rs, user.rs, and their field types) -/

/-- `LESBClassification` (lesb.rs): the classification enum; the claims
verified here treat it as opaque payload. -/
inductive LESBClassification : Type
  | AC | HB | HG | HM | HR | HX | KA | KG | LF | LH | LL | LN | LP | LS | LX
  | NF | NG | NI | NJ | NM | NR | NV | NBookEmoji | PD | PG
  | QA | QB | QP | QS | QZ | RE | RF | RK | RP
  | WA | WE | WM | WP | WS | WW | WX | XQ
  deriving DecidableEq

/-- `Format` (format.rs). -/
inductive Format : Type
  | Paperback | Hardcover | Magazine | Zine | CD
  | Vinyl12Inch | Vinyl10Inch | Vinyl7Inch | Cassette
  deriving DecidableEq

/-- `Location` (location.rs). -/
inductive Location : Type
  | Billy | BillyOversize | Kitchen | VinylShelf
  deriving DecidableEq

/-- `PartialDate(u16, Option<(u8, Option<u8>)>)` (date.rs): year, then
optional month with optional day.  Its custom serde codec goes through the
`Display`/`FromStr` string form, which round-trips exactly for in-range
values; it is modelled as the value itself. -/
structure PartialDate : Type where
  y : Nat
  md : Option (Nat × Option Nat)
  deriving DecidableEq

/-- `Author` (item.rs:80-84). -/
structure Author : Type where
  name : String
  sort_name : String
  deriving DecidableEq

/-- `Credit` (item.rs:86-93). -/
structure Credit : Type where
  author : Author
  credited_as : Option String
  join_phrase : Option String
  deriving DecidableEq

/-- `Item` (item.rs:95-167).  `id` carries `#[serde(skip)]`: it is not
part of any serialized form of the record. -/
structure Item : Type where
  id : Option Nat
  classification : LESBClassification
  authors : List Credit
  original_date : Option PartialDate
  title : String
  language : String
  format : Format
  volume_and_issue : Option (Nat × Nat)
  location : Location
  borrower : Option Nat
  barcode : Option String
  notes : Option String
  discogs_release : Option String
  isbn13 : Option String
  issn : Option String
  lccn : Option String
  musicbrainz_release_group : Option String
  oclc_number : Option String
  openlibrary_id : Option String
  deriving DecidableEq

/-- The serializable projection of an `Item`: every field except the
`#[serde(skip)] id`.  This is the modelled content of the CBOR primary
blob and of an item line of the JSON dump. -/
structure ItemBlob : Type where
  classification : LESBClassification
  authors : List Credit
  original_date : Option PartialDate
  title : String
  language : String
  format : Format
  volume_and_issue : Option (Nat × Nat)
  location : Location
  borrower : Option Nat
  barcode : Option String
  notes : Option String
  discogs_release : Option String
  isbn13 : Option String
  issn : Option String
  lccn : Option String
  musicbrainz_release_group : Option String
  oclc_number : Option String
  openlibrary_id : Option String
  deriving DecidableEq

/-- Serialization of an `Item` (id skipped). -/
def itemToBlob (it : Item) : ItemBlob :=
  { classification := it.classification, authors := it.authors
    original_date := it.original_date, title := it.title
    language := it.language, format := it.format
    volume_and_issue := it.volume_and_issue, location := it.location
    borrower := it.borrower, barcode := it.barcode, notes := it.notes
    discogs_release := it.discogs_release, isbn13 := it.isbn13
    issn := it.issn, lccn := it.lccn
    musicbrainz_release_group := it.musicbrainz_release_group
    oclc_number := it.oclc_number, openlibrary_id := it.openlibrary_id }

/-- Deserialization of an `Item` blob: the skipped `id` defaults to
`None`. -/
def blobToItem (b : ItemBlob) : Item :=
  { id := none, classification := b.classification, authors := b.authors
    original_date := b.original_date, title := b.title
    language := b.language, format := b.format
    volume_and_issue := b.volume_and_issue, location := b.location
    borrower := b.borrower, barcode := b.barcode, notes := b.notes
    discogs_release := b.discogs_release, isbn13 := b.isbn13
    issn := b.issn, lccn := b.lccn
    musicbrainz_release_group := b.musicbrainz_release_group
    oclc_number := b.oclc_number, openlibrary_id := b.openlibrary_id }

theorem blobToItem_itemToBlob (it : Item) :
    blobToItem (itemToBlob it) = { it with id := none } := rfl

theorem itemToBlob_blobToItem (b : ItemBlob) :
    itemToBlob (blobToItem b) = b := rfl

/-- `User` (user.rs:45-52).  Every field is serialized; in particular the
identifier (`barcode`) is part of the blob.  (`admin` is skipped when
`false` and defaults to `false`, which round-trips exactly.)  A `User`
primary blob is therefore the `User` value itself. -/
structure User : Type where
  barcode : Nat
  name : String
  admin : Bool
  deriving DecidableEq

/-! ## SaveData and the Row implementations (db.rs:48-99, item.rs:311-341,
user.rs:72-88) -/

/-- `SaveData` (db.rs:48-83), parametric in the primary-blob type of the
row.  The `index : Option<IndexData>` component (the tantivy document) is
a projection into the external search engine and is not modelled. -/
structure SaveData (β : Type) : Type where
  id : Nat
  blob : β
  secondary : List (String × List Nat)

/-- `SaveData::new` (db.rs:63-70). -/
def SaveData.new {β : Type} (id : Nat) (blob : β) : SaveData β :=
  { id := id, blob := blob, secondary := [] }

/-- `SaveData::secondary` (db.rs:78-82): insert a secondary-table blob. -/
def SaveData.withSecondary {β : Type} (v : SaveData β) (tree_name : String)
    (blob : List Nat) : SaveData β :=
  { v with secondary := (tree_name, blob) :: v.secondary }

/-- Lookup in the modelled `HashMap<&'static str, _>`. -/
def mapGet {γ : Type} (m : List (String × γ)) (name : String) : Option γ :=
  (List.find? (fun e => decide (e.1 = name)) m).map Prod.snd

/-- `<Item as Row>::load` (item.rs:315-322): deserialize the blob (the
skipped `id` comes back as `None`), inject the externally supplied
identifier, then hydrate `borrower` from the `"checkout"` secondary entry
if one was found. -/
def Item.load (id : Nat) (blob : ItemBlob) (secondary : List (String × List Nat)) :
    Except String Item :=
  let item := blobToItem blob
  let item := { item with id := some id }
  match mapGet secondary "checkout" with
  | some barcode =>
    match id_to_u64 barcode with
    | .ok b => .ok { item with borrower := some b }
    | .error e => .error e
  | none => .ok item

/-- `<Item as Row>::save` (item.rs:324-340).  Returns the `SaveData`
outcome together with the post-call state of the row (`save` takes
`&mut self`).  The CBOR serializer is a parameter so that the
serialization-failure path is expressible; `Db::save` instantiates it
with the exact codec `Except.ok`.  `id_gen` is total here: the only
failure of the real closure is a store error of `generate_id`, which the
pure store model excludes. -/
def Item.save (ser : ItemBlob → Except String ItemBlob)
    (id_gen : Option Nat → Nat) (self : Item) :
    Except String (SaveData ItemBlob) × Item :=
  let id := id_gen self.id
  let self := { self with id := some id }
  let old_borrower := self.borrower
  let self := { self with borrower := none }
  let cbor := ser (itemToBlob self)
  let self := { self with borrower := old_borrower }
  match cbor with
  | .error e => (.error e, self)
  | .ok blob =>
    let save_data := SaveData.new id blob
    let save_data :=
      match self.borrower with
      | some borrower => save_data.withSecondary "checkout" (id_to_bytes borrower)
      | none => save_data
    (.ok save_data, self)

/-- `<User as Row>::load` (user.rs:75-79): deserialize, then require the
externally supplied identifier to equal the serialized barcode. -/
def User.load (id : Nat) (blob : User) (_secondary : List (String × List Nat)) :
    Except String User :=
  if id = blob.barcode then .ok blob else .error "id and barcode do not match"

/-- `<User as Row>::save` (user.rs:81-87): the identifier is the barcode;
the `id_gen` closure is never called and the row is not mutated. -/
def User.save (self : User) : Except String (SaveData User) × User :=
  (.ok (SaveData.new self.barcode self), self)

/-! ## Database facade state (db.rs:101-140)

`Db` holds the sled store; per record type there is one primary tree
(`Item::TREE = "item"`, `User::TREE = "users"`) and, for `Item`, the one
declared secondary tree `"item-checkout"` (`Item::SECONDARY =
["checkout"]`, `User::SECONDARY = []`).  `nextId` is the state of sled's
store-wide monotonic `generate_id` counter. -/

structure DbState : Type where
  itemTree : SledTree ItemBlob
  checkoutTree : SledTree (List Nat)
  userTree : SledTree User
  nextId : Nat
  deriving DecidableEq

/-- A freshly created store: empty trees, identifier generator at 0. -/
def emptyDb : DbState :=
  { itemTree := [], checkoutTree := [], userTree := [], nextId := 0 }

/-- `Db::save::<Item>` (db.rs:165-192): ask the row for `SaveData`
(passing the id-allocating closure), write the primary blob, then
reconcile each declared secondary table — upsert the blob `SaveData`
provides, or delete the row's entry when it provides none.  The
index-writer steps (db.rs:176-183) only touch the external search engine
and are not modelled.  The closure `|id_opt| match id_opt { Some(id) =>
Ok(id), None => self.sled.generate_id() }` returns the existing id or the
counter's current value; the counter advances exactly when it was
consulted. -/
def Db.saveItem (db : DbState) (row : Item) : DbState × Item :=
  let p := Item.save Except.ok (fun id_opt => id_opt.getD db.nextId) row
  match p.1 with
  | .error _ => (db, p.2)
  | .ok save_data =>
    let id_bytes := id_to_bytes save_data.id
    let db :=
      { db with
        itemTree := treeSet db.itemTree id_bytes save_data.blob
        nextId := if row.id = none then db.nextId + 1 else db.nextId }
    let db :=
      { db with
        checkoutTree :=
          match mapGet save_data.secondary "checkout" with
          | some data => treeSet db.checkoutTree id_bytes data
          | none => treeDel db.checkoutTree id_bytes }
    (db, p.2)

/-- `Db::save::<User>` (db.rs:165-192): `User` declares no secondary
tables, so only the primary write happens; `User::save` never consults
the id generator. -/
def Db.saveUser (db : DbState) (row : User) : DbState × User :=
  let p := User.save row
  match p.1 with
  | .error _ => (db, p.2)
  | .ok save_data =>
    ({ db with userTree := treeSet db.userTree (id_to_bytes save_data.id) save_data.blob },
     p.2)

/-- `Db::load::<Item>` (db.rs:148-163): read the primary blob (absent key
is `Ok(None)`), collect the secondary entries that exist, and hand both
to `Item::load`. -/
def Db.loadItem (db : DbState) (id : Nat) : Except String (Option Item) :=
  match treeGet db.itemTree (id_to_bytes id) with
  | some value =>
    let map :=
      match treeGet db.checkoutTree (id_to_bytes id) with
      | some v => [("checkout", v)]
      | none => []
    (Item.load id value map).map some
  | none => .ok none

/-- `Db::load::<User>` (db.rs:148-163). -/
def Db.loadUser (db : DbState) (id : Nat) : Except String (Option User) :=
  match treeGet db.userTree (id_to_bytes id) with
  | some value => (User.load id value []).map some
  | none => .ok none

/-! ## Cursor iteration (db.rs:287-341)

`Iter<T>` keeps the last key returned and a `done` flag, and repeatedly
asks the store for the first key strictly greater than `last_key`.  To
state claims about store failures, the iterator is written against
abstract store operations (`get_gt` on the primary tree, `get` on each
secondary tree) that may return errors; the pure instantiations
`pureGetGt` / `pureGet` below model an error-free sled. -/

structure IterSt : Type where
  last_key : List Nat
  done : Bool
  deriving DecidableEq

/-- `Iter::new` (db.rs:295-305). -/
def iterInit : IterSt := { last_key := [], done := false }

/-- The secondary-lookup loop of `Iter::next` (db.rs:317-326): probe each
secondary tree at `key`; found entries are collected, absent ones are
skipped, and the first store error aborts. -/
def collectSec (secs : List (String × (List Nat → Except String (Option (List Nat)))))
    (key : List Nat) : Except String (List (String × List Nat)) :=
  match secs with
  | [] => .ok []
  | (tree_name, get) :: rest =>
    match get key with
    | .ok (some v) => (collectSec rest key).map (fun m => (tree_name, v) :: m)
    | .ok none => collectSec rest key
    | .error e => .error e

/-- `Iter::next` (db.rs:310-340), one step: returns the yielded element
(`none` = iteration over) and the successor state.  Note the source
behaviour on a secondary-lookup error: it returns the error *without*
setting `done` and *without* advancing `last_key`. -/
def iterNext {α β : Type} (get_gt : List Nat → Except String (Option (List Nat × α)))
    (secs : List (String × (List Nat → Except String (Option (List Nat)))))
    (load : Nat → α → List (String × List Nat) → Except String β)
    (s : IterSt) : Option (Except String β) × IterSt :=
  if s.done then (none, s)
  else
    match get_gt s.last_key with
    | .ok (some (key, value)) =>
      let id := id_to_u64 key
      match collectSec secs key with
      | .error e => (some (.error e), s)
      | .ok secondary =>
        (some (id.bind fun i => load i value secondary), { s with last_key := key })
    | .ok none => (none, { s with done := true })
    | .error e => (some (.error e), { s with done := true })

/-- A full drain of the iterator: collect yielded elements until `next`
returns `None`, with enough fuel. -/
def iterDrain {α β : Type} (fuel : Nat)
    (get_gt : List Nat → Except String (Option (List Nat × α)))
    (secs : List (String × (List Nat → Except String (Option (List Nat)))))
    (load : Nat → α → List (String × List Nat) → Except String β)
    (s : IterSt) : List (Except String β) :=
  match fuel with
  | 0 => []
  | fuel + 1 =>
    match iterNext get_gt secs load s with
    | (none, _) => []
    | (some x, s') => x :: iterDrain fuel get_gt secs load s'

/-- An error-free sled primary cursor over a pure tree. -/
def pureGetGt {α : Type} (t : SledTree α) :
    List Nat → Except String (Option (List Nat × α)) :=
  fun k => .ok (treeGetGt t k)

/-- An error-free sled point lookup over a pure tree. -/
def pureGet (t : SledTree (List Nat)) :
    List Nat → Except String (Option (List Nat)) :=
  fun k => .ok (treeGet t k)

/-- What the secondary-collection loop produces over error-free trees. -/
def collectPure (secs : List (String × SledTree (List Nat))) (key : List Nat) :
    List (String × List Nat) :=
  match secs with
  | [] => []
  | (tree_name, t) :: rest =>
    match treeGet t key with
    | some v => (tree_name, v) :: collectPure rest key
    | none => collectPure rest key

/-- Pure secondary stores from pure trees. -/
def pureSecs : List (String × SledTree (List Nat)) →
    List (String × (List Nat → Except String (Option (List Nat))))
  | [] => []
  | e :: rest => (e.1, pureGet e.2) :: pureSecs rest

/-- `Db::iter::<Item>` (db.rs:227-233) followed by a full drain. -/
def itemsOfDb (db : DbState) : List (Except String Item) :=
  iterDrain db.itemTree.length (pureGetGt db.itemTree)
    (pureSecs [("checkout", db.checkoutTree)]) Item.load iterInit

/-- `Db::iter::<User>` (db.rs:227-233) followed by a full drain. -/
def usersOfDb (db : DbState) : List (Except String User) :=
  iterDrain db.userTree.length (pureGetGt db.userTree) [] User.load iterInit

/-! ## Dump / restore (db.rs:235-285)

`dump` drains `iter::<Item>()` then `iter::<User>()` and writes each
record as one tagged JSON line (`DumpRow`).  Serializing an `Item` skips
its `id` (`#[serde(skip)]`), so an item line carries no identifier and
deserializes with `id = None`; a user line carries every field including
`barcode`.  `restore` replays each line as a `save`. -/

/-- `DumpRow` (db.rs:269-273).  The payload of an item line is the item
with its (unserialized) `id` already dropped. -/
inductive DumpRow : Type
  | item (it : Item)
  | user (u : User)
  deriving DecidableEq

/-- Error propagation of the dump loop (db.rs:242-249): the first failed
record aborts the dump. -/
def seqExcept {γ : Type} : List (Except String γ) → Except String (List γ)
  | [] => .ok []
  | x :: xs =>
    match x with
    | .error e => .error e
    | .ok v => (seqExcept xs).map (fun l => v :: l)

/-- `Db::dump` (db.rs:242-249) via `Db::iter_all` (db.rs:235-240): items
first, then users; `{ it with id := none }` is the effect of JSON-
serializing an `Item` (the `id` field is `#[serde(skip)]`). -/
def dumpDb (db : DbState) : Except String (List DumpRow) := do
  let items ← seqExcept (itemsOfDb db)
  let users ← seqExcept (usersOfDb db)
  .ok (items.map (fun it => DumpRow.item { it with id := none }) ++
       users.map DumpRow.user)

/-- One line of `Db::restore` (db.rs:254-257): replay the tagged record
as a save of the matching row type. -/
def restoreRow (db : DbState) (row : DumpRow) : DbState :=
  match row with
  | .item it => (Db.saveItem db it).1
  | .user u => (Db.saveUser db u).1

/-- `Db::restore` (db.rs:251-260): replay every line as a save. -/
def restoreDb (db : DbState) (rows : List DumpRow) : DbState :=
  rows.foldl restoreRow db

/-! ## Characterization of `Db::save::<Item>` -/

theorem saveItem_eq (db : DbState) (it : Item) :
    Db.saveItem db it =
      ({ itemTree :=
           treeSet db.itemTree (id_to_bytes (it.id.getD db.nextId))
             (itemToBlob { it with id := some (it.id.getD db.nextId), borrower := none })
         checkoutTree :=
           match it.borrower with
           | some b =>
             treeSet db.checkoutTree (id_to_bytes (it.id.getD db.nextId)) (id_to_bytes b)
           | none => treeDel db.checkoutTree (id_to_bytes (it.id.getD db.nextId))
         userTree := db.userTree
         nextId := if it.id = none then db.nextId + 1 else db.nextId },
       { it with id := some (it.id.getD db.nextId) }) := by
  cases hb : it.borrower with
  | none =>
    show Db.saveItem db it = _
    rw [Db.saveItem, Item.save]
    simp only [hb]
    rfl
  | some b =>
    rw [Db.saveItem, Item.save]
    simp only [hb]
    rfl

/-! ## C2 — identifier byte order vs numeric order -/

/-- C2: the claim states that for `x < y` the encoding of `x` is
byte-lexicographically below the encoding of `y`.  `id_to_bytes` uses
`to_ne_bytes`, i.e. little-endian order on the application's hosts, and
this fails at `x = 1, y = 256`: `encode(1) = [1,0,0,0,0,0,0,0]` sorts
*above* `encode(256) = [0,1,0,0,0,0,0,0]`.  The spec's own invariant
(byte-key order must match numeric identifier order) marks the
`to_ne_bytes` choice as the slip. -/
theorem id_to_bytes_order_violation :
    (1 : Nat) < 256 ∧
    lexLt (id_to_bytes 1) (id_to_bytes 256) = false ∧
    lexLt (id_to_bytes 256) (id_to_bytes 1) = true := by
  refine ⟨by norm_num, ?_, ?_⟩ <;> rfl

/-! ## C6 — codec invertibility and key validation -/

/-- C6: decoding inverts encoding on every representable (64-bit)
identifier, and `id_to_u64` fails exactly on inputs whose length is not
8 — the length check is the only validation. -/
theorem id_codec_roundtrip_and_length_check :
    (∀ x : Nat, x < 2 ^ 64 → id_to_u64 (id_to_bytes x) = .ok x) ∧
    (∀ bs : List Nat, (∃ e, id_to_u64 bs = .error e) ↔ bs.length ≠ 8) := by
  constructor
  · exact id_to_u64_id_to_bytes
  · intro bs
    constructor
    · rintro ⟨e, he⟩ h8
      rw [id_to_u64, if_pos h8] at he
      exact absurd he (by simp)
    · intro h8
      rw [id_to_u64, if_neg h8]
      exact ⟨_, rfl⟩

theorem id_codec_roundtrip_and_length_check_witness :
    id_to_u64 (id_to_bytes 7) = .ok 7 ∧ (∃ e, id_to_u64 [0, 1, 2] = .error e) :=
  ⟨id_codec_roundtrip_and_length_check.1 7 (by norm_num),
   (id_codec_roundtrip_and_length_check.2 [0, 1, 2]).mpr (by norm_num)⟩

/-! ## C9 — transient-field exclusion frame property of `Item::save` -/

/-- C9: for every serializer outcome (success or failure), after
`Item::save` returns, `borrower` equals its pre-call value and no field
other than `id` has changed; and the primary blob (what the exact codec
serializes) carries `borrower = None` — the field is excluded before
serialization and restored within the same call. -/
theorem item_save_frame :
    ∀ (ser : ItemBlob → Except String ItemBlob) (id_gen : Option Nat → Nat) (it : Item),
      (Item.save ser id_gen it).2.borrower = it.borrower ∧
      (Item.save ser id_gen it).2 = { it with id := (Item.save ser id_gen it).2.id } ∧
      (∀ sd, (Item.save Except.ok id_gen it).1 = .ok sd → sd.blob.borrower = none) := by
  intro ser id_gen it
  refine ⟨?_, ?_, ?_⟩
  · rw [Item.save]
    cases ser (itemToBlob { it with id := some (id_gen it.id), borrower := none }) <;> rfl
  · rw [Item.save]
    cases ser (itemToBlob { it with id := some (id_gen it.id), borrower := none }) with
    | error e => rfl
    | ok blob => cases hb : it.borrower <;> simp only [hb]
  · intro sd hsd
    rw [Item.save] at hsd
    cases hb : it.borrower <;> simp only [hb] at hsd <;>
      (injection hsd with h; rw [← h]; rfl)

/-- A concrete item used by the witnesses below (borrower set). -/
def sampleItem : Item :=
  { id := none, classification := .AC, authors := [], original_date := none
    title := "t", language := "eng", format := .Paperback
    volume_and_issue := none, location := .Billy, borrower := some 7
    barcode := none, notes := none, discogs_release := none, isbn13 := none
    issn := none, lccn := none, musicbrainz_release_group := none
    oclc_number := none, openlibrary_id := none }

theorem item_save_frame_witness :
    (Item.save Except.ok (fun o => o.getD 5) sampleItem).2.borrower = sampleItem.borrower ∧
    (∃ sd, (Item.save Except.ok (fun o => o.getD 5) sampleItem).1 = Except.ok sd ∧
      sd.blob.borrower = none) := by
  have h := item_save_frame Except.ok (fun o => o.getD 5) sampleItem
  exact ⟨h.1, ⟨_, rfl, h.2.2 _ rfl⟩⟩

/-! ## C10 — `User::load` identifier/barcode validation -/

/-- C10: `User::load` succeeds exactly when the externally supplied
identifier equals the deserialized barcode, errors whenever they differ,
and consequently any `User` observed through `Db::load` has
`barcode` equal to the key it was loaded under. -/
theorem user_load_id_barcode :
    (∀ (id : Nat) (blob : User) (sec : List (String × List Nat)) (u : User),
      User.load id blob sec = .ok u → u = blob ∧ u.barcode = id) ∧
    (∀ (id : Nat) (blob : User) (sec : List (String × List Nat)),
      id ≠ blob.barcode → ∃ e, User.load id blob sec = .error e) ∧
    (∀ (db : DbState) (id : Nat) (u : User),
      Db.loadUser db id = .ok (some u) → u.barcode = id) := by
  refine ⟨?_, ?_, ?_⟩
  · intro id blob sec u h
    rw [User.load] at h
    by_cases hid : id = blob.barcode
    · rw [if_pos hid] at h
      injection h with h
      exact ⟨h.symm, by rw [← h, hid]⟩
    · rw [if_neg hid] at h
      exact absurd h (by simp)
  · intro id blob sec hid
    rw [User.load, if_neg hid]
    exact ⟨_, rfl⟩
  · intro db id u h
    rw [Db.loadUser] at h
    cases hg : treeGet db.userTree (id_to_bytes id) with
    | none =>
      simp only [hg] at h
      exact absurd h (by simp)
    | some value =>
      simp only [hg, User.load] at h
      by_cases hid : id = value.barcode
      · rw [if_pos hid] at h
        simp only [Except.map] at h
        injection h with h
        injection h with h
        rw [← h, ← hid]
      · rw [if_neg hid] at h
        simp [Except.map] at h

theorem user_load_id_barcode_witness :
    (User.load 3 { barcode := 3, name := "n", admin := false } [] =
        .ok { barcode := 3, name := "n", admin := false } →
      ({ barcode := 3, name := "n", admin := false } : User).barcode = 3) ∧
    (∃ e, User.load 4 { barcode := 3, name := "n", admin := false } [] = .error e) := by
  refine ⟨?_, ?_⟩
  · intro h
    exact (user_load_id_barcode.1 3 _ [] _ h).2
  · exact user_load_id_barcode.2.1 4 { barcode := 3, name := "n", admin := false } []
      (by norm_num)

/-! ## C8 — identifiers external to the blob: true for `Item`, false for
`User` -/

/-- C8 counterexample: for the Row type `User` the identifier *is* part
of the primary blob.  Two users identical except for their barcode
serialize to different blobs, and loading a user blob under a different
identifier errors instead of returning a row carrying the supplied
identifier. -/
theorem user_blob_contains_identifier :
    (User.save { barcode := 1, name := "a", admin := false }).1 =
      .ok (SaveData.new 1 ({ barcode := 1, name := "a", admin := false } : User)) ∧
    (User.save { barcode := 2, name := "a", admin := false }).1 =
      .ok (SaveData.new 2 ({ barcode := 2, name := "a", admin := false } : User)) ∧
    (SaveData.new 1 ({ barcode := 1, name := "a", admin := false } : User)).blob ≠
      (SaveData.new 2 ({ barcode := 2, name := "a", admin := false } : User)).blob ∧
    User.load 2 { barcode := 1, name := "a", admin := false } [] =
      .error "id and barcode do not match" := by
  refine ⟨rfl, rfl, ?_, rfl⟩
  intro h
  have hb := congrArg User.barcode h
  simp [SaveData.new] at hb

/-- C8 amended: identifiers are external to the *Item* blob —
`itemToBlob` ignores `id`, and `Item::load` stamps the supplied
identifier onto whatever it deserializes, so a loaded item's identifier
equals the `id` argument regardless of the blob.  For `User` the
identifier (barcode) is serialized inside the blob; `User::load`
validates the supplied identifier against it and errors on mismatch, so
a *successfully* loaded user also carries the supplied identifier. -/
theorem identifier_injection_amended :
    (∀ (id : Nat) (blob : ItemBlob) (sec : List (String × List Nat)) (it : Item),
      Item.load id blob sec = .ok it → it.id = some id) ∧
    (∀ (it : Item) (id' : Option Nat), itemToBlob { it with id := id' } = itemToBlob it) ∧
    (∀ (id : Nat) (blob : User) (sec : List (String × List Nat)) (u : User),
      User.load id blob sec = .ok u → u.barcode = id) := by
  refine ⟨?_, fun it id' => rfl, fun id blob sec u h => (user_load_id_barcode.1 id blob sec u h).2⟩
  intro id blob sec it h
  rw [Item.load] at h
  cases hm : mapGet sec "checkout" with
  | none =>
    simp only [hm] at h
    injection h with h
    rw [← h]
  | some barcode =>
    simp only [hm] at h
    cases hu : id_to_u64 barcode with
    | ok b =>
      simp only [hu] at h
      injection h with h
      rw [← h]
    | error e =>
      simp only [hu] at h
      exact absurd h (by simp)

theorem identifier_injection_amended_witness :
    Item.load 9 (itemToBlob sampleItem) [] =
      .ok { sampleItem with id := some 9 } ∧
    ({ sampleItem with id := some 9 } : Item).id = some 9 := by
  refine ⟨rfl, ?_⟩
  exact identifier_injection_amended.1 9 (itemToBlob sampleItem) [] _ rfl

/-! ## Helper characterizations of `Item::load` -/

theorem mapGet_single {γ : Type} (n : String) (v : γ) : mapGet [(n, v)] n = some v := by
  simp [mapGet]

theorem Item.load_checkout (id : Nat) (blob : ItemBlob) (b : Nat) (hb : b < 2 ^ 64) :
    Item.load id blob [("checkout", id_to_bytes b)] =
      .ok { blobToItem blob with id := some id, borrower := some b } := by
  rw [Item.load]
  have hm : mapGet [("checkout", id_to_bytes b)] "checkout" = some (id_to_bytes b) :=
    mapGet_single _ _
  simp only [hm, id_to_u64_id_to_bytes b hb]

theorem Item.load_nosec (id : Nat) (blob : ItemBlob) :
    Item.load id blob [] = .ok { blobToItem blob with id := some id } := rfl

/-! ## C5 — secondary-table reconciliation on save -/

/-- C5: after `Db::save` of an item, the `"checkout"` secondary entry
under the row's identifier is exactly what `SaveData` provided: the
encoded borrower when the row has one, absent otherwise.  In particular
saving a row with a borrower and then saving it again with the borrower
cleared leaves no entry. -/
theorem save_secondary_reconciliation :
    (∀ (db : DbState) (it : Item), TreeSorted db.checkoutTree →
      treeGet (Db.saveItem db it).1.checkoutTree (id_to_bytes (it.id.getD db.nextId)) =
        it.borrower.map id_to_bytes) ∧
    (∀ (db : DbState) (it : Item) (b : Nat), TreeSorted db.checkoutTree →
      it.borrower = some b →
      treeGet (Db.saveItem (Db.saveItem db it).1
          { (Db.saveItem db it).2 with borrower := none }).1.checkoutTree
        (id_to_bytes (it.id.getD db.nextId)) = none) := by
  constructor
  · intro db it hsort
    rw [saveItem_eq]
    cases hb : it.borrower with
    | none => exact treeGet_treeDel_self _ _ hsort
    | some b => rw [treeGet_treeSet_self]; rfl
  · intro db it b hsort hb
    rw [saveItem_eq, saveItem_eq]
    simp only [hb, Option.getD_some]
    exact treeGet_treeDel_self _ _ (treeSorted_treeSet _ _ hsort)

theorem save_secondary_reconciliation_witness :
    treeGet (Db.saveItem emptyDb sampleItem).1.checkoutTree (id_to_bytes 0) =
      some (id_to_bytes 7) ∧
    treeGet (Db.saveItem (Db.saveItem emptyDb sampleItem).1
        { (Db.saveItem emptyDb sampleItem).2 with borrower := none }).1.checkoutTree
      (id_to_bytes 0) = none := by
  constructor
  · exact save_secondary_reconciliation.1 emptyDb sampleItem List.Pairwise.nil
  · exact save_secondary_reconciliation.2 emptyDb sampleItem 7 List.Pairwise.nil rfl

/-! ## C1 — save/load round-trip -/

/-- C1: after a successful save the row carries its identifier (freshly
allocated when it had none), and loading by that identifier returns the
saved row exactly — for both Row types.  For `Item` the borrower must be
a representable (64-bit) value, as it is in the Rust source where
`borrower : Option<u64>`. -/
theorem save_load_roundtrip :
    (∀ (db : DbState) (it : Item), TreeSorted db.checkoutTree →
      (∀ b, it.borrower = some b → b < 2 ^ 64) →
      (Db.saveItem db it).2.id = some (it.id.getD db.nextId) ∧
      Db.loadItem (Db.saveItem db it).1 (it.id.getD db.nextId) =
        .ok (some (Db.saveItem db it).2)) ∧
    (∀ (db : DbState) (u : User),
      (Db.saveUser db u).2 = u ∧
      Db.loadUser (Db.saveUser db u).1 u.barcode = .ok (some u)) := by
  constructor
  · intro db it hsort hb64
    refine ⟨by rw [saveItem_eq], ?_⟩
    cases hb : it.borrower with
    | some b =>
      have hb' : b < 2 ^ 64 := hb64 b hb
      rw [saveItem_eq]
      simp only [hb]
      rw [Db.loadItem]
      simp only [treeGet_treeSet_self]
      rw [Item.load_checkout _ _ _ hb']
      simp only [Except.map, blobToItem_itemToBlob]
    | none =>
      rw [saveItem_eq]
      simp only [hb]
      rw [Db.loadItem]
      simp only [treeGet_treeSet_self, treeGet_treeDel_self _ _ hsort]
      rw [Item.load_nosec]
      simp only [Except.map, blobToItem_itemToBlob]
  · intro db u
    refine ⟨rfl, ?_⟩
    rw [Db.saveUser]
    rw [Db.loadUser]
    simp only [User.save, SaveData.new, treeGet_treeSet_self]
    rw [User.load, if_pos rfl]
    rfl

theorem save_load_roundtrip_witness :
    (Db.saveItem emptyDb sampleItem).2.id = some 0 ∧
    Db.loadItem (Db.saveItem emptyDb sampleItem).1 0 =
      .ok (some (Db.saveItem emptyDb sampleItem).2) ∧
    Db.loadUser (Db.saveUser emptyDb { barcode := 3, name := "n", admin := true }).1 3 =
      .ok (some { barcode := 3, name := "n", admin := true }) := by
  have hi := save_load_roundtrip.1 emptyDb sampleItem List.Pairwise.nil
    (fun b hb => by injection hb with h; rw [← h]; norm_num)
  have hu := save_load_roundtrip.2 emptyDb { barcode := 3, name := "n", admin := true }
  exact ⟨hi.1, hi.2, hu.2⟩

/-! ## C7 — iterator behaviour on store errors -/

/-- C7 counterexample helper: a primary cursor that always returns one
entry. -/
def constGetGt : List Nat → Except String (Option (List Nat × Nat)) :=
  fun _ => .ok (some ([0, 0, 0, 0, 0, 0, 0, 0], 0))

/-- C7 counterexample helper: a secondary tree whose lookups always fail. -/
def badSecStore : List (String × (List Nat → Except String (Option (List Nat)))) :=
  [("checkout", fun _ => .error "secondary store failure")]

/-- C7 counterexample: a store error from a *secondary-table lookup* does
not exhaust the sequence.  `Iter::next` returns the error without setting
`done` (and without advancing `last_key`), so the very next call yields
the same error again instead of `None`. -/
theorem iter_secondary_error_not_exhausting :
    (iterNext constGetGt badSecStore (fun i v _ => .ok (i, v)) iterInit).1 =
      some (.error "secondary store failure") ∧
    (iterNext constGetGt badSecStore (fun i v _ => .ok (i, v))
        (iterNext constGetGt badSecStore (fun i v _ => .ok (i, v)) iterInit).2).1 =
      some (.error "secondary store failure") := by
  exact ⟨rfl, rfl⟩

/-- C7 amended: an error from the *primary cursor* (`get_gt`) is yielded
once and permanently exhausts the sequence (the `done` flag is set and
every later `next` returns `None` leaving the state unchanged), while an
error from a secondary-table lookup is yielded with the iterator state
unchanged — the same key is retried by the next call. -/
theorem iter_error_exhaustion_amended :
    (∀ (α β : Type) (get_gt : List Nat → Except String (Option (List Nat × α)))
        (secs : List (String × (List Nat → Except String (Option (List Nat)))))
        (load : Nat → α → List (String × List Nat) → Except String β)
        (s : IterSt) (e : String), s.done = false → get_gt s.last_key = .error e →
      iterNext get_gt secs load s =
        (some (.error e), { last_key := s.last_key, done := true })) ∧
    (∀ (α β : Type) (get_gt : List Nat → Except String (Option (List Nat × α)))
        (secs : List (String × (List Nat → Except String (Option (List Nat)))))
        (load : Nat → α → List (String × List Nat) → Except String β)
        (s : IterSt), s.done = true → iterNext get_gt secs load s = (none, s)) ∧
    (∀ (α β : Type) (get_gt : List Nat → Except String (Option (List Nat × α)))
        (secs : List (String × (List Nat → Except String (Option (List Nat)))))
        (load : Nat → α → List (String × List Nat) → Except String β)
        (s : IterSt) (key : List Nat) (value : α) (e : String),
      s.done = false → get_gt s.last_key = .ok (some (key, value)) →
      collectSec secs key = .error e →
      iterNext get_gt secs load s = (some (.error e), s)) := by
  refine ⟨?_, ?_, ?_⟩
  · intro α β get_gt secs load s e hdone hgt
    rw [iterNext, if_neg (by rw [hdone]; exact Bool.false_ne_true), hgt]
  · intro α β get_gt secs load s hdone
    rw [iterNext, if_pos hdone]
  · intro α β get_gt secs load s key value e hdone hgt hsec
    rw [iterNext, if_neg (by rw [hdone]; exact Bool.false_ne_true), hgt]
    simp only [hsec]

theorem iter_error_exhaustion_amended_witness :
    iterNext (fun (_ : List Nat) => (.error "disk" : Except String (Option (List Nat × Nat))))
        [] (fun i v (_ : List (String × List Nat)) => (.ok (i, v) : Except String (Nat × Nat)))
        iterInit =
      (some (.error "disk"), { last_key := [], done := true }) ∧
    iterNext (fun (_ : List Nat) => (.error "disk" : Except String (Option (List Nat × Nat))))
        [] (fun i v (_ : List (String × List Nat)) => (.ok (i, v) : Except String (Nat × Nat)))
        { last_key := [], done := true } =
      (none, { last_key := [], done := true }) ∧
    iterNext constGetGt badSecStore (fun i v _ => .ok (i, v)) iterInit =
      (some (.error "secondary store failure"), iterInit) := by
  refine ⟨?_, ?_, ?_⟩
  · exact iter_error_exhaustion_amended.1 Nat (Nat × Nat) _ [] _ iterInit "disk" rfl rfl
  · exact iter_error_exhaustion_amended.2.1 Nat (Nat × Nat) _ [] _
      { last_key := [], done := true } rfl
  · exact iter_error_exhaustion_amended.2.2 Nat (Nat × Nat) constGetGt badSecStore _
      iterInit [0, 0, 0, 0, 0, 0, 0, 0] 0 "secondary store failure" rfl rfl rfl

/-! ## C3 — iteration order and completeness -/

theorem collectSec_pure (secs : List (String × SledTree (List Nat))) (key : List Nat) :
    collectSec (pureSecs secs) key = .ok (collectPure secs key) := by
  induction secs with
  | nil => rfl
  | cons e rest ih =>
    simp only [pureSecs, collectSec, collectPure, pureGet]
    cases hv : treeGet e.2 key with
    | some v => simp [hv, ih, Except.map]
    | none => simp [hv, ih]

theorem filter_gt_step {α : Type} (t : SledTree α) (ht : TreeSorted t) (l : List Nat)
    (e : List Nat × α) (rest : List (List Nat × α))
    (hf : t.filter (fun x => lexLt l x.1) = e :: rest) :
    t.filter (fun x => lexLt e.1 x.1) = rest := by
  induction t generalizing rest with
  | nil => exact absurd hf (by simp)
  | cons a t ih =>
    rw [TreeSorted, List.pairwise_cons] at ht
    rw [List.filter_cons] at hf
    by_cases hpa : lexLt l a.1
    · rw [if_pos (by rw [hpa])] at hf
      injection hf with hea hrest
      subst hea
      rw [List.filter_cons, if_neg (by simp [lexLt_irrefl])]
      rw [← hrest]
      have h1 : t.filter (fun x => lexLt a.1 x.1) = t :=
        List.filter_eq_self.mpr (fun x hx => ht.1 x hx)
      have h2 : t.filter (fun x => lexLt l x.1) = t :=
        List.filter_eq_self.mpr (fun x hx => lexLt_trans hpa (ht.1 x hx))
      rw [h1, h2]
    · rw [if_neg (by simpa using hpa)] at hf
      have he_t : e ∈ t := List.mem_of_mem_filter (hf ▸ List.mem_cons_self e rest)
      have hlt : lexLt a.1 e.1 = true := ht.1 e he_t
      rw [List.filter_cons, if_neg (by simp [lexLt_asymm hlt])]
      exact ih ht.2 rest hf

theorem iterDrain_pure {α β : Type} (t : SledTree α) (ht : TreeSorted t)
    (secs : List (String × SledTree (List Nat)))
    (load : Nat → α → List (String × List Nat) → Except String β) :
    ∀ (fuel : Nat) (l : List Nat), (t.filter (fun x => lexLt l x.1)).length ≤ fuel →
      iterDrain fuel (pureGetGt t) (pureSecs secs) load { last_key := l, done := false } =
        (t.filter (fun x => lexLt l x.1)).map
          (fun e => (id_to_u64 e.1).bind fun i => load i e.2 (collectPure secs e.1)) := by
  intro fuel
  induction fuel with
  | zero =>
    intro l h
    have hnil : t.filter (fun x => lexLt l x.1) = [] :=
      List.eq_nil_of_length_eq_zero (Nat.le_zero.mp h)
    rw [hnil]
    rfl
  | succ fuel ih =>
    intro l h
    cases hf : t.filter (fun x => lexLt l x.1) with
    | nil =>
      have hgg : treeGetGt t l = none := by
        rw [treeGetGt, ← List.filter_head?, hf]
        rfl
      simp [iterDrain, iterNext, pureGetGt, hgg]
    | cons e rest =>
      obtain ⟨ek, ev⟩ := e
      have hgg : treeGetGt t l = some (ek, ev) := by
        rw [treeGetGt, ← List.filter_head?, hf]
        rfl
      have hstep : t.filter (fun x => lexLt ek x.1) = rest :=
        filter_gt_step t ht l (ek, ev) rest hf
      have hlen : rest.length ≤ fuel := by
        rw [hf] at h
        simpa using h
      rw [iterDrain]
      simp only [iterNext, pureGetGt, collectSec_pure, Bool.false_eq_true, if_false, hgg]
      rw [List.map_cons]
      have ihe := ih ek (by rw [hstep]; exact hlen)
      rw [hstep] at ihe
      rw [ihe]

/-- The primary tree obtained from a sequence of identifier/blob writes
(each `Db::save` does `tree.set(id_to_bytes(id), blob)`, db.rs:174-175). -/
def buildTree {α : Type} (ops : List (Nat × α)) : SledTree α :=
  ops.foldl (fun t p => treeSet t (id_to_bytes p.1) p.2) []

/-- The last blob written for an identifier by a sequence of writes
(`none` when the identifier was never saved). -/
def lastWrite {α : Type} (ops : List (Nat × α)) (id : Nat) : Option α :=
  ops.foldl (fun acc p => if p.1 = id then some p.2 else acc) none

theorem treeSorted_foldl_treeSet {α : Type} (ops : List (Nat × α)) :
    ∀ (t0 : SledTree α), TreeSorted t0 →
      TreeSorted (ops.foldl (fun t p => treeSet t (id_to_bytes p.1) p.2) t0) := by
  induction ops with
  | nil => intro t0 h; exact h
  | cons a ops ih =>
    intro t0 h
    exact ih _ (treeSorted_treeSet _ _ h)

theorem treeSorted_buildTree {α : Type} (ops : List (Nat × α)) :
    TreeSorted (buildTree ops) :=
  treeSorted_foldl_treeSet ops [] List.Pairwise.nil

theorem keys8_foldl_treeSet {α : Type} (ops : List (Nat × α)) :
    ∀ (t0 : SledTree α), (∀ e ∈ t0, (e.1 : List Nat).length = 8) →
      ∀ e ∈ ops.foldl (fun t p => treeSet t (id_to_bytes p.1) p.2) t0,
        (e.1 : List Nat).length = 8 := by
  induction ops with
  | nil => intro t0 h; exact h
  | cons a ops ih =>
    intro t0 h
    refine ih _ ?_
    intro e he
    rcases mem_treeSet he with h1 | h1
    · exact h e h1
    · rw [h1]
      exact id_to_bytes_length a.1

theorem keys8_buildTree {α : Type} (ops : List (Nat × α)) :
    ∀ e ∈ buildTree ops, (e.1 : List Nat).length = 8 :=
  keys8_foldl_treeSet ops [] (by intro e he; cases he)

theorem treeGet_foldl_treeSet {α : Type} (ops : List (Nat × α))
    (hops : ∀ p ∈ ops, p.1 < 2 ^ 64) (id : Nat) (hid : id < 2 ^ 64) :
    ∀ (t0 : SledTree α),
      treeGet (ops.foldl (fun t p => treeSet t (id_to_bytes p.1) p.2) t0) (id_to_bytes id) =
        ops.foldl (fun acc p => if p.1 = id then some p.2 else acc)
          (treeGet t0 (id_to_bytes id)) := by
  induction ops with
  | nil => intro t0; rfl
  | cons a ops ih =>
    intro t0
    have ha : a.1 < 2 ^ 64 := hops a (List.mem_cons_self a ops)
    rw [List.foldl_cons, List.foldl_cons]
    rw [ih (fun p hp => hops p (List.mem_cons_of_mem a hp))]
    by_cases hae : a.1 = id
    · rw [if_pos hae, hae, treeGet_treeSet_self]
    · rw [if_neg hae]
      rw [treeGet_treeSet_ne]
      intro hk
      exact hae (id_to_bytes_injOn hid ha hk).symm

theorem treeGet_buildTree {α : Type} (ops : List (Nat × α))
    (hops : ∀ p ∈ ops, p.1 < 2 ^ 64) (id : Nat) (hid : id < 2 ^ 64) :
    treeGet (buildTree ops) (id_to_bytes id) = lastWrite ops id :=
  treeGet_foldl_treeSet ops hops id hid []

/-- C3: over any sequence of primary-table writes, a full drain of the
iterator yields exactly the tree's entries — one element per identifier
ever saved and not since overwritten (`treeGet = lastWrite`), each with
its latest blob, in strictly increasing byte-key order with no
repeats — with the per-entry secondary lookups collected as the load
function's input. -/
theorem iter_sorted_complete :
    ∀ (α β : Type) (ops : List (Nat × α))
      (secs : List (String × SledTree (List Nat)))
      (load : Nat → α → List (String × List Nat) → Except String β),
      (∀ p ∈ ops, p.1 < 2 ^ 64) →
      List.Pairwise (fun a b => lexLt a b = true) ((buildTree ops).map Prod.fst) ∧
      (∀ id, id < 2 ^ 64 → treeGet (buildTree ops) (id_to_bytes id) = lastWrite ops id) ∧
      iterDrain (buildTree ops).length (pureGetGt (buildTree ops)) (pureSecs secs) load
          iterInit =
        (buildTree ops).map
          (fun e => (id_to_u64 e.1).bind fun i => load i e.2 (collectPure secs e.1)) := by
  intro α β ops secs load hops
  have hsort := treeSorted_buildTree ops
  have h8 := keys8_buildTree ops
  refine ⟨?_, fun id hid => treeGet_buildTree ops hops id hid, ?_⟩
  · exact List.pairwise_map.mpr hsort
  · have hfull : (buildTree ops).filter (fun x => lexLt [] x.1) = buildTree ops := by
      refine List.filter_eq_self.mpr ?_
      intro e he
      refine lexLt_nil_of_ne_nil ?_
      intro hnil
      have := h8 e he
      rw [hnil] at this
      exact absurd this (by simp)
    have := iterDrain_pure (buildTree ops) hsort secs load (buildTree ops).length []
      (by rw [hfull])
    rw [hfull] at this
    exact this

theorem iter_sorted_complete_witness :
    List.Pairwise (fun a b => lexLt a b = true)
      ((buildTree [((256 : Nat), (10 : Nat)), (1, 20)]).map Prod.fst) ∧
    treeGet (buildTree [((256 : Nat), (10 : Nat)), (1, 20)]) (id_to_bytes 1) =
      lastWrite [((256 : Nat), (10 : Nat)), (1, 20)] 1 ∧
    iterDrain (buildTree [((256 : Nat), (10 : Nat)), (1, 20)]).length
        (pureGetGt (buildTree [((256 : Nat), (10 : Nat)), (1, 20)])) (pureSecs [])
        (fun i v _ => .ok (i, v)) iterInit =
      (buildTree [((256 : Nat), (10 : Nat)), (1, 20)]).map
        (fun e => (id_to_u64 e.1).bind fun i => .ok (i, e.2)) := by
  have h := iter_sorted_complete Nat (Nat × Nat) [((256 : Nat), (10 : Nat)), (1, 20)] []
    (fun i v _ => .ok (i, v)) (by decide)
  exact ⟨h.1, h.2.1 1 (by norm_num), h.2.2⟩

/-! ## C4 — dump/restore -/

/-- The effect of JSON-serializing an `Item` for the dump: the
`#[serde(skip)]` identifier is dropped. -/
def eraseId (it : Item) : Item :=
  { it with id := none }

/-- C4 counterexample: dumping a store holding one item saved under
identifier 5 produces a line with no identifier (the `Item` id is
`#[serde(skip)]`), and restoring that dump into an empty store saves the
item under a *fresh* identifier 0 — the record's identifier is not
preserved, so the multiset of records (which include their identifiers)
differs. -/
theorem dump_restore_changes_item_ids :
    dumpDb (Db.saveItem { emptyDb with nextId := 5 } sampleItem).1 =
      .ok [DumpRow.item (eraseId sampleItem)] ∧
    itemsOfDb (restoreDb emptyDb [DumpRow.item (eraseId sampleItem)]) =
      [.ok { sampleItem with id := some 0 }] ∧
    itemsOfDb (Db.saveItem { emptyDb with nextId := 5 } sampleItem).1 =
      [.ok { sampleItem with id := some 5 }] ∧
    ({ sampleItem with id := some 0 } : Item) ≠ { sampleItem with id := some 5 } := by
  refine ⟨rfl, rfl, rfl, ?_⟩
  intro h
  have := congrArg Item.id h
  simp at this

theorem treeGet_mem {α : Type} {t : SledTree α} {k : List Nat} {v : α}
    (h : treeGet t k = some v) : (k, v) ∈ t := by
  rw [treeGet] at h
  cases hf : List.find? (fun e => decide (e.1 = k)) t with
  | none => rw [hf] at h; exact absurd h (by simp)
  | some x =>
    rw [hf] at h
    have hx := List.find?_some hf
    have hmem := List.mem_of_find?_eq_some hf
    simp only [decide_eq_true_eq] at hx
    simp only [Option.map] at h
    injection h with h
    have : x = (k, v) := by
      obtain ⟨x1, x2⟩ := x
      simp only at hx h
      rw [hx, h]
    rwa [this] at hmem

/-- Well-formedness of a store state, as maintained by sled and by every
save path: sorted trees, 8-byte keys, checkout entries holding encoded
64-bit borrower identifiers, user rows keyed by their own barcode. -/
def DbWF (db : DbState) : Prop :=
  TreeSorted db.itemTree ∧ TreeSorted db.checkoutTree ∧ TreeSorted db.userTree ∧
  (∀ e ∈ db.itemTree, (e.1 : List Nat).length = 8) ∧
  (∀ e ∈ db.itemTree, ∀ b, e.2.borrower = some b → b < 2 ^ 64) ∧
  (∀ e ∈ db.checkoutTree, ∃ b, b < 2 ^ 64 ∧ e.2 = id_to_bytes b) ∧
  (∀ e ∈ db.userTree, e.1 = id_to_bytes e.2.barcode ∧ e.2.barcode < 2 ^ 64) ∧
  db.itemTree.length < 2 ^ 64

/-- The record a primary-tree entry denotes: blob deserialized, key
decoded as the identifier, borrower hydrated from the checkout tree. -/
def itemRecord (ct : SledTree (List Nat)) (e : List Nat × ItemBlob) : Item :=
  match treeGet ct e.1 with
  | some v =>
    { blobToItem e.2 with id := some (fromBytesAux e.1), borrower := some (fromBytesAux v) }
  | none => { blobToItem e.2 with id := some (fromBytesAux e.1) }

theorem itemsOfDb_eq (db : DbState)
    (hsort : TreeSorted db.itemTree)
    (h8 : ∀ e ∈ db.itemTree, (e.1 : List Nat).length = 8)
    (hck : ∀ e ∈ db.checkoutTree, ∃ b, b < 2 ^ 64 ∧ e.2 = id_to_bytes b) :
    itemsOfDb db = db.itemTree.map (fun e => .ok (itemRecord db.checkoutTree e)) := by
  rw [itemsOfDb]
  have hfull : db.itemTree.filter (fun x => lexLt [] x.1) = db.itemTree := by
    refine List.filter_eq_self.mpr ?_
    intro e he
    refine lexLt_nil_of_ne_nil ?_
    intro hnil
    have h8e := h8 e he
    rw [hnil] at h8e
    exact absurd h8e (by simp)
  have hd := iterDrain_pure db.itemTree hsort [("checkout", db.checkoutTree)] Item.load
    db.itemTree.length [] (by rw [hfull])
  rw [hfull] at hd
  rw [iterInit, hd]
  refine List.map_congr_left ?_
  intro e he
  have h8e := h8 e he
  rw [show id_to_u64 e.1 = .ok (fromBytesAux e.1) from by rw [id_to_u64, if_pos h8e]]
  rw [itemRecord]
  cases hct : treeGet db.checkoutTree e.1 with
  | some v =>
    obtain ⟨b, hb, hvb⟩ := hck (e.1, v) (treeGet_mem hct)
    simp only at hvb
    have hdec : fromBytesAux (id_to_bytes b) = b := by
      rw [id_to_bytes, fromBytesAux_toBytesAux]
      exact Nat.mod_eq_of_lt (by norm_num at hb ⊢; omega)
    simp only [collectPure, hct]
    simp only [Except.bind]
    rw [hvb, Item.load_checkout _ _ _ hb, hdec]
  | none =>
    simp only [collectPure, hct]
    simp only [Except.bind]
    rw [Item.load_nosec]

theorem usersOfDb_eq (db : DbState) (hsort : TreeSorted db.userTree)
    (hu : ∀ e ∈ db.userTree, e.1 = id_to_bytes e.2.barcode ∧ e.2.barcode < 2 ^ 64) :
    usersOfDb db = db.userTree.map (fun e => .ok e.2) := by
  rw [usersOfDb]
  have h8 : ∀ e ∈ db.userTree, (e.1 : List Nat).length = 8 := by
    intro e he
    rw [(hu e he).1]
    exact id_to_bytes_length _
  have hfull : db.userTree.filter (fun x => lexLt [] x.1) = db.userTree := by
    refine List.filter_eq_self.mpr ?_
    intro e he
    refine lexLt_nil_of_ne_nil ?_
    intro hnil
    have h8e := h8 e he
    rw [hnil] at h8e
    exact absurd h8e (by simp)
  have hd := iterDrain_pure db.userTree hsort [] User.load db.userTree.length []
    (by rw [hfull])
  rw [hfull] at hd
  rw [show (pureSecs [] : List (String × (List Nat → Except String (Option (List Nat))))) = []
    from rfl] at hd
  rw [iterInit, hd]
  refine List.map_congr_left ?_
  intro e he
  have h8e := h8 e he
  obtain ⟨hkey, hbar⟩ := hu e he
  have hdec : fromBytesAux (id_to_bytes e.2.barcode) = e.2.barcode := by
    rw [id_to_bytes, fromBytesAux_toBytesAux]
    exact Nat.mod_eq_of_lt (by norm_num at hbar ⊢; omega)
  rw [show id_to_u64 e.1 = .ok (fromBytesAux e.1) from by rw [id_to_u64, if_pos h8e]]
  simp only [Except.bind]
  rw [hkey, hdec]
  rw [show collectPure [] (id_to_bytes e.2.barcode) = [] from rfl]
  rw [User.load, if_pos rfl]

theorem seqExcept_map_ok {γ δ : Type} (f : δ → γ) (l : List δ) :
    seqExcept (l.map (fun x => (.ok (f x) : Except String γ))) = .ok (l.map f) := by
  induction l with
  | nil => rfl
  | cons x xs ih => simp [seqExcept, ih, Except.map]

theorem treeGet_eq_none {α : Type} {t : SledTree α} {k : List Nat}
    (h : ∀ e ∈ t, e.1 ≠ k) : treeGet t k = none := by
  have hf : List.find? (fun e => decide (e.1 = k)) t = none :=
    List.find?_eq_none.mpr (fun x hx => by simpa using h x hx)
  rw [treeGet, hf]
  rfl

theorem itemRecord_congr (ct ct' : SledTree (List Nat)) (e : List Nat × ItemBlob)
    (h : treeGet ct' e.1 = treeGet ct e.1) : itemRecord ct' e = itemRecord ct e := by
  rw [itemRecord, itemRecord, h]

theorem itemRecord_new (ct : SledTree (List Nat)) (it : Item) (n : Nat)
    (hcksort : TreeSorted ct) (hn64 : n < 2 ^ 64)
    (hb64 : ∀ b, it.borrower = some b → b < 2 ^ 64) :
    itemRecord
      (match it.borrower with
       | some b => treeSet ct (id_to_bytes n) (id_to_bytes b)
       | none => treeDel ct (id_to_bytes n))
      (id_to_bytes n, itemToBlob { it with id := some n, borrower := none }) =
      { it with id := some n } := by
  have hdec : fromBytesAux (id_to_bytes n) = n := by
    rw [id_to_bytes, fromBytesAux_toBytesAux]
    exact Nat.mod_eq_of_lt (by norm_num at hn64 ⊢; omega)
  cases hb : it.borrower with
  | some b =>
    have hb' : b < 2 ^ 64 := hb64 b hb
    have hdecb : fromBytesAux (id_to_bytes b) = b := by
      rw [id_to_bytes, fromBytesAux_toBytesAux]
      exact Nat.mod_eq_of_lt (by norm_num at hb' ⊢; omega)
    rw [itemRecord]
    simp only [treeGet_treeSet_self, blobToItem_itemToBlob, hdec, hdecb]
  | none =>
    rw [itemRecord]
    simp only [treeGet_treeDel_self _ _ hcksort, blobToItem_itemToBlob, hdec]

/-- Invariant maintained while restoring: every key in the item and
checkout trees encodes an identifier below the allocator's counter, and
checkout entries hold encoded 64-bit borrowers. -/
def RestInv (db : DbState) : Prop :=
  TreeSorted db.itemTree ∧ TreeSorted db.checkoutTree ∧
  (∀ e ∈ db.itemTree, ∃ i, i < db.nextId ∧ e.1 = id_to_bytes i) ∧
  (∀ e ∈ db.checkoutTree, ∃ i, i < db.nextId ∧ e.1 = id_to_bytes i) ∧
  (∀ e ∈ db.checkoutTree, ∃ b, b < 2 ^ 64 ∧ e.2 = id_to_bytes b)

theorem restore_items_perm :
    ∀ (its : List Item) (db : DbState), RestInv db →
      (∀ it ∈ its, it.id = none) →
      (∀ it ∈ its, ∀ b, it.borrower = some b → b < 2 ^ 64) →
      db.nextId + its.length ≤ 2 ^ 64 →
      RestInv (its.foldl (fun d it => (Db.saveItem d it).1) db) ∧
      (its.foldl (fun d it => (Db.saveItem d it).1) db).userTree = db.userTree ∧
      (its.foldl (fun d it => (Db.saveItem d it).1) db).nextId = db.nextId + its.length ∧
      List.Perm
        (((its.foldl (fun d it => (Db.saveItem d it).1) db).itemTree.map
            (fun e => itemRecord
              (its.foldl (fun d it => (Db.saveItem d it).1) db).checkoutTree e)).map eraseId)
        (its.map eraseId ++
         (db.itemTree.map (fun e => itemRecord db.checkoutTree e)).map eraseId) := by
  intro its
  induction its with
  | nil =>
    intro db hinv _ _ _
    exact ⟨hinv, rfl, rfl, by simp⟩
  | cons it rest ih =>
    intro db hinv hids hbs hbound
    obtain ⟨hisort, hcsort, hikeys, hckeys, hcvals⟩ := hinv
    have hid : it.id = none := hids it (List.mem_cons_self it rest)
    have hn64 : db.nextId < 2 ^ 64 := by
      have := hbound
      simp only [List.length_cons] at this
      omega
    have hkb : (id_to_bytes db.nextId).length = 8 := id_to_bytes_length _
    have hfresh_item : treeGet db.itemTree (id_to_bytes db.nextId) = none := by
      refine treeGet_eq_none ?_
      intro e he hek
      obtain ⟨i, hi, hie⟩ := hikeys e he
      rw [hie] at hek
      have := id_to_bytes_injOn (by omega) hn64 hek
      omega
    have hfresh_ck : treeGet db.checkoutTree (id_to_bytes db.nextId) = none := by
      refine treeGet_eq_none ?_
      intro e he hek
      obtain ⟨i, hi, hie⟩ := hckeys e he
      rw [hie] at hek
      have := id_to_bytes_injOn (by omega) hn64 hek
      omega
    -- the state after saving the head item
    have hstep : (Db.saveItem db it).1 =
        { itemTree :=
            treeSet db.itemTree (id_to_bytes db.nextId)
              (itemToBlob { it with id := some db.nextId, borrower := none })
          checkoutTree :=
            match it.borrower with
            | some b =>
              treeSet db.checkoutTree (id_to_bytes db.nextId) (id_to_bytes b)
            | none => treeDel db.checkoutTree (id_to_bytes db.nextId)
          userTree := db.userTree
          nextId := db.nextId + 1 } := by
      rw [saveItem_eq]
      simp [hid]
    have hcsort1 : TreeSorted (Db.saveItem db it).1.checkoutTree := by
      rw [hstep]
      cases it.borrower
      · exact treeSorted_treeDel _ hcsort
      · exact treeSorted_treeSet _ _ hcsort
    have hinv1 : RestInv (Db.saveItem db it).1 := by
      refine ⟨?_, hcsort1, ?_, ?_, ?_⟩
      · rw [hstep]
        exact treeSorted_treeSet _ _ hisort
      · rw [hstep]
        intro e he
        rcases mem_treeSet he with h1 | h1
        · obtain ⟨i, hi, hie⟩ := hikeys e h1
          exact ⟨i, by simp [hstep]; omega, hie⟩
        · exact ⟨db.nextId, by simp [hstep], by rw [h1]⟩
      · rw [hstep]
        intro e he
        simp only at he
        cases hb : it.borrower with
        | some b =>
          rw [hb] at he
          rcases mem_treeSet he with h1 | h1
          · obtain ⟨i, hi, hie⟩ := hckeys e h1
            exact ⟨i, by simp [hstep]; omega, hie⟩
          · exact ⟨db.nextId, by simp [hstep], by rw [h1]⟩
        | none =>
          rw [hb] at he
          obtain ⟨i, hi, hie⟩ := hckeys e (mem_treeDel he)
          exact ⟨i, by simp [hstep]; omega, hie⟩
      · rw [hstep]
        intro e he
        simp only at he
        cases hb : it.borrower with
        | some b =>
          rw [hb] at he
          rcases mem_treeSet he with h1 | h1
          · exact hcvals e h1
          · refine ⟨b, hbs it (List.mem_cons_self it rest) b hb, by rw [h1]⟩
        | none =>
          rw [hb] at he
          exact hcvals e (mem_treeDel he)
    have hb64 : ∀ b, it.borrower = some b → b < 2 ^ 64 :=
      fun b hb => hbs it (List.mem_cons_self it rest) b hb
    have hbound1 : (Db.saveItem db it).1.nextId + rest.length ≤ 2 ^ 64 := by
      rw [hstep]
      show db.nextId + 1 + rest.length ≤ 2 ^ 64
      simp only [List.length_cons] at hbound
      omega
    -- the new entry record and preservation of old records
    have hnewrec : itemRecord (Db.saveItem db it).1.checkoutTree
        (id_to_bytes db.nextId,
         itemToBlob { it with id := some db.nextId, borrower := none }) =
        { it with id := some db.nextId } := by
      rw [hstep]
      exact itemRecord_new db.checkoutTree it db.nextId hcsort hn64 hb64
    have holdrec : ∀ e ∈ db.itemTree,
        itemRecord (Db.saveItem db it).1.checkoutTree e =
          itemRecord db.checkoutTree e := by
      intro e he
      refine itemRecord_congr _ _ _ ?_
      rw [hstep]
      obtain ⟨i, hi, hie⟩ := hikeys e he
      have hne : e.1 ≠ id_to_bytes db.nextId := by
        rw [hie]
        intro hh
        have := id_to_bytes_injOn (by omega) hn64 hh
        omega
      cases it.borrower
      · exact treeGet_treeDel_ne _ _ _ hne
      · exact treeGet_treeSet_ne _ _ _ _ hne
    have hperm_tree : List.Perm (Db.saveItem db it).1.itemTree
        ((id_to_bytes db.nextId,
          itemToBlob { it with id := some db.nextId, borrower := none }) ::
         db.itemTree) := by
      rw [hstep]
      exact treeSet_perm_fresh _ _ hfresh_item
    -- apply the induction hypothesis to the tail
    have htail := ih (Db.saveItem db it).1 hinv1
      (fun x hx => hids x (List.mem_cons_of_mem it hx))
      (fun x hx => hbs x (List.mem_cons_of_mem it hx)) hbound1
    rw [List.foldl_cons]
    refine ⟨htail.1, by rw [htail.2.1, hstep], ?_, ?_⟩
    · rw [htail.2.2.1, hstep]
      simp only [List.length_cons]
      omega
    · -- records of the intermediate state, as a multiset
      have hmid : List.Perm
          (((Db.saveItem db it).1.itemTree.map
              (fun e => itemRecord (Db.saveItem db it).1.checkoutTree e)).map eraseId)
          (eraseId { it with id := some db.nextId } ::
           (db.itemTree.map (fun e => itemRecord db.checkoutTree e)).map eraseId) := by
        refine List.Perm.trans (List.Perm.map _ (List.Perm.map _ hperm_tree)) ?_
        rw [List.map_cons, List.map_cons, hnewrec]
        refine List.Perm.cons _ ?_
        rw [List.map_congr_left holdrec]
      have hfinal := htail.2.2.2
      refine List.Perm.trans hfinal ?_
      refine List.Perm.trans (List.Perm.append_left (rest.map eraseId) hmid) ?_
      have heid : eraseId { it with id := some db.nextId } = eraseId it := rfl
      rw [heid]
      rw [List.map_cons]
      exact List.perm_middle

theorem foldl_saveUser (users : List User) :
    ∀ db : DbState,
      users.foldl (fun d u => (Db.saveUser d u).1) db =
        { db with
          userTree :=
            users.foldl (fun t u => treeSet t (id_to_bytes u.barcode) u) db.userTree } := by
  induction users with
  | nil => intro db; rfl
  | cons u rest ih =>
    intro db
    rw [List.foldl_cons, List.foldl_cons]
    rw [ih]
    rfl

theorem restore_users_perm :
    ∀ (users : List User) (t : SledTree User), TreeSorted t →
      (∀ u ∈ users, treeGet t (id_to_bytes u.barcode) = none) →
      List.Pairwise (fun u v => id_to_bytes u.barcode ≠ id_to_bytes v.barcode) users →
      TreeSorted (users.foldl (fun tt u => treeSet tt (id_to_bytes u.barcode) u) t) ∧
      List.Perm (users.foldl (fun tt u => treeSet tt (id_to_bytes u.barcode) u) t)
        (users.map (fun u => (id_to_bytes u.barcode, u)) ++ t) := by
  intro users
  induction users with
  | nil =>
    intro t hsort _ _
    exact ⟨hsort, by simp⟩
  | cons u rest ih =>
    intro t hsort hfresh hpair
    rw [List.pairwise_cons] at hpair
    have hfu : treeGet t (id_to_bytes u.barcode) = none :=
      hfresh u (List.mem_cons_self u rest)
    have hsort1 : TreeSorted (treeSet t (id_to_bytes u.barcode) u) :=
      treeSorted_treeSet _ _ hsort
    have hfresh1 : ∀ v ∈ rest,
        treeGet (treeSet t (id_to_bytes u.barcode) u) (id_to_bytes v.barcode) = none := by
      intro v hv
      rw [treeGet_treeSet_ne _ _ _ _ (fun hh => hpair.1 v hv hh.symm)]
      exact hfresh v (List.mem_cons_of_mem u hv)
    have htail := ih (treeSet t (id_to_bytes u.barcode) u) hsort1 hfresh1 hpair.2
    rw [List.foldl_cons]
    refine ⟨htail.1, ?_⟩
    refine List.Perm.trans htail.2 ?_
    refine List.Perm.trans
      (List.Perm.append_left (rest.map (fun v => (id_to_bytes v.barcode, v)))
        (treeSet_perm_fresh _ _ hfu)) ?_
    rw [List.map_cons]
    exact List.perm_middle

theorem foldl_restoreRow_items (f : Item → Item) (l : List Item) :
    ∀ d : DbState,
      (l.map (fun x => DumpRow.item (f x))).foldl restoreRow d =
        l.foldl (fun db x => (Db.saveItem db (f x)).1) d := by
  induction l with
  | nil => intro d; rfl
  | cons x l ih =>
    intro d
    rw [List.map_cons, List.foldl_cons, List.foldl_cons]
    exact ih _

theorem foldl_restoreRow_users (l : List User) :
    ∀ d : DbState,
      (l.map DumpRow.user).foldl restoreRow d =
        l.foldl (fun db u => (Db.saveUser db u).1) d := by
  induction l with
  | nil => intro d; rfl
  | cons x l ih =>
    intro d
    rw [List.map_cons, List.foldl_cons, List.foldl_cons]
    exact ih _

/-- C4 amended: restoring a dump into an empty store preserves every
record *up to Item identifiers*.  `User` records (whose identifier, the
barcode, is serialized in the blob) come back identical as a multiset;
`Item` records come back with all fields preserved but with *fresh*
identifiers, because the dump omits the `#[serde(skip)]` item id and
restore therefore reallocates — the multiset of item records with
identifiers erased is preserved. -/
theorem dump_restore_preserves_records_up_to_item_ids :
    ∀ db : DbState, DbWF db →
      ∃ rows items users,
        dumpDb db = .ok rows ∧
        seqExcept (itemsOfDb db) = .ok items ∧
        seqExcept (usersOfDb db) = .ok users ∧
        rows = items.map (fun x => DumpRow.item (eraseId x)) ++ users.map DumpRow.user ∧
        ∃ items' users',
          seqExcept (itemsOfDb (restoreDb emptyDb rows)) = .ok items' ∧
          seqExcept (usersOfDb (restoreDb emptyDb rows)) = .ok users' ∧
          List.Perm (items'.map eraseId) (items.map eraseId) ∧
          List.Perm users' users := by
  intro db hWF
  obtain ⟨hisort, hcsort, husort, h8, hbb, hck, hu, hlen⟩ := hWF
  have hitems := itemsOfDb_eq db hisort h8 hck
  have husers := usersOfDb_eq db husort hu
  have hseqi : seqExcept (itemsOfDb db) =
      .ok (db.itemTree.map (fun e => itemRecord db.checkoutTree e)) := by
    rw [hitems]
    exact seqExcept_map_ok _ _
  have hsequ : seqExcept (usersOfDb db) = .ok (db.userTree.map (fun e => e.2)) := by
    rw [husers]
    exact seqExcept_map_ok _ _
  have hdump : dumpDb db =
      .ok ((db.itemTree.map (fun e => itemRecord db.checkoutTree e)).map
            (fun x => DumpRow.item (eraseId x)) ++
           (db.userTree.map (fun e => e.2)).map DumpRow.user) := by
    rw [dumpDb, hseqi, hsequ]
    rfl
  refine ⟨_, db.itemTree.map (fun e => itemRecord db.checkoutTree e),
          db.userTree.map (fun e => e.2), hdump, hseqi, hsequ, rfl, ?_⟩
  -- item restore phase
  have hids : ∀ it ∈ (db.itemTree.map (fun e => itemRecord db.checkoutTree e)).map eraseId,
      it.id = none := by
    intro x hx
    obtain ⟨y, _, hxy⟩ := List.mem_map.mp hx
    rw [← hxy]
    rfl
  have hbors : ∀ it ∈ (db.itemTree.map (fun e => itemRecord db.checkoutTree e)).map eraseId,
      ∀ b, it.borrower = some b → b < 2 ^ 64 := by
    intro x hx b hbx
    obtain ⟨y, hy, hxy⟩ := List.mem_map.mp hx
    obtain ⟨e, he, hye⟩ := List.mem_map.mp hy
    have hyb : y.borrower = some b := by
      rw [← hxy] at hbx
      exact hbx
    rw [← hye, itemRecord] at hyb
    cases hct : treeGet db.checkoutTree e.1 with
    | some v =>
      simp only [hct] at hyb
      obtain ⟨b', hb', hvb'⟩ := hck (e.1, v) (treeGet_mem hct)
      simp only at hvb'
      injection hyb with hyb
      rw [← hyb, hvb', id_to_bytes, fromBytesAux_toBytesAux]
      have hm : b' % 256 ^ 8 < 256 ^ 8 := Nat.mod_lt _ (by norm_num)
      norm_num at hm ⊢
      omega
    | none =>
      simp only [hct] at hyb
      exact hbb e he b hyb
  have hbound : emptyDb.nextId +
      ((db.itemTree.map (fun e => itemRecord db.checkoutTree e)).map eraseId).length ≤
        2 ^ 64 := by
    simp only [emptyDb, List.length_map]
    omega
  have hempty : RestInv emptyDb := by
    rw [RestInv]
    refine ⟨List.Pairwise.nil, List.Pairwise.nil, ?_, ?_, ?_⟩ <;> intro e he <;> cases he
  have hri := restore_items_perm
    ((db.itemTree.map (fun e => itemRecord db.checkoutTree e)).map eraseId) emptyDb
    hempty hids hbors hbound
  -- user restore phase
  have hupair : List.Pairwise (fun u v => id_to_bytes u.barcode ≠ id_to_bytes v.barcode)
      (db.userTree.map (fun e => e.2)) := by
    refine List.pairwise_map.mpr ?_
    refine List.Pairwise.imp_of_mem ?_ husort
    intro a b ha hb hR
    rw [← (hu a ha).1, ← (hu b hb).1]
    intro heq
    rw [heq] at hR
    rw [lexLt_irrefl] at hR
    exact absurd hR (by simp)
  have hru := restore_users_perm (db.userTree.map (fun e => e.2)) [] List.Pairwise.nil
    (fun u _ => rfl) hupair
  set items := db.itemTree.map (fun e => itemRecord db.checkoutTree e) with hitems_def
  set users := db.userTree.map (fun e => e.2) with husers_def
  set its := items.map eraseId with hits_def
  set db1 := its.foldl (fun d it => (Db.saveItem d it).1) emptyDb with hdb1_def
  obtain ⟨hinv1, huser1, hnext1, hperm1⟩ := hri
  obtain ⟨husort2, hupermt⟩ := hru
  set uT' := users.foldl (fun t u => treeSet t (id_to_bytes u.barcode) u)
    ([] : SledTree User) with huT_def
  have hrestore : restoreDb emptyDb
      (items.map (fun x => DumpRow.item (eraseId x)) ++ users.map DumpRow.user) =
      { db1 with userTree := uT' } := by
    rw [restoreDb, List.foldl_append,
      foldl_restoreRow_items eraseId items emptyDb, foldl_restoreRow_users users]
    have hdb1x : items.foldl (fun d x => (Db.saveItem d (eraseId x)).1) emptyDb = db1 := by
      rw [hdb1_def, hits_def,
        List.foldl_map eraseId (fun d it => (Db.saveItem d it).1) items emptyDb]
    rw [hdb1x, foldl_saveUser, huser1]
    rfl
  rw [hrestore]
  have h8' : ∀ e ∈ db1.itemTree, (e.1 : List Nat).length = 8 := by
    intro e he
    obtain ⟨i, _, hie⟩ := hinv1.2.2.1 e he
    rw [hie]
    exact id_to_bytes_length i
  have hitems2 := itemsOfDb_eq { db1 with userTree := uT' } hinv1.1 h8' hinv1.2.2.2.2
  have hub : ∀ u ∈ users, u.barcode < 2 ^ 64 := by
    intro u hu_m
    rw [husers_def] at hu_m
    obtain ⟨e, he, hue⟩ := List.mem_map.mp hu_m
    rw [← hue]
    exact (hu e he).2
  have hu2 : ∀ e ∈ ({ db1 with userTree := uT' } : DbState).userTree,
      e.1 = id_to_bytes e.2.barcode ∧ e.2.barcode < 2 ^ 64 := by
    intro e he
    have he' : e ∈ users.map (fun u => (id_to_bytes u.barcode, u)) ++ [] :=
      (hupermt.mem_iff).mp he
    rw [List.append_nil] at he'
    obtain ⟨u, hu_m, hue⟩ := List.mem_map.mp he'
    rw [← hue]
    exact ⟨rfl, hub u hu_m⟩
  have husers2 := usersOfDb_eq { db1 with userTree := uT' } husort2 hu2
  refine ⟨db1.itemTree.map (fun e => itemRecord db1.checkoutTree e),
          uT'.map (fun e => e.2), ?_, ?_, ?_, ?_⟩
  · rw [hitems2]
    exact seqExcept_map_ok _ _
  · rw [husers2]
    exact seqExcept_map_ok _ _
  · have hRR : List.map eraseId its ++
        (emptyDb.itemTree.map (fun e => itemRecord emptyDb.checkoutTree e)).map eraseId =
        its := by
      rw [show (emptyDb.itemTree.map (fun e => itemRecord emptyDb.checkoutTree e)).map
            eraseId = ([] : List Item) from rfl]
      rw [List.append_nil, hits_def, List.map_map]
      exact List.map_congr_left (fun x _ => rfl)
    have hP := hperm1
    rw [hRR] at hP
    exact hP
  · refine List.Perm.trans (hupermt.map (fun e => e.2)) ?_
    rw [List.append_nil, List.map_map]
    rw [@List.map_id'' User
      ((fun (e : List Nat × User) => e.2) ∘ fun u => (id_to_bytes u.barcode, u))
      (fun u => rfl) users]

/-- A concrete store for the C4 witness: one item saved under
identifier 5 (with a checkout entry for borrower 7). -/
def db5 : DbState :=
  (Db.saveItem { emptyDb with nextId := 5 } sampleItem).1

theorem dump_restore_preserves_records_up_to_item_ids_witness :
    ∃ rows items users,
      dumpDb db5 = .ok rows ∧
      seqExcept (itemsOfDb db5) = .ok items ∧
      seqExcept (usersOfDb db5) = .ok users ∧
      rows = items.map (fun x => DumpRow.item (eraseId x)) ++ users.map DumpRow.user ∧
      ∃ items' users',
        seqExcept (itemsOfDb (restoreDb emptyDb rows)) = .ok items' ∧
        seqExcept (usersOfDb (restoreDb emptyDb rows)) = .ok users' ∧
        List.Perm (items'.map eraseId) (items.map eraseId) ∧
        List.Perm users' users := by
  refine dump_restore_preserves_records_up_to_item_ids db5 ?_
  have htree : db5.itemTree =
      [(id_to_bytes 5, itemToBlob { sampleItem with id := some 5, borrower := none })] := rfl
  have hcktree : db5.checkoutTree = [(id_to_bytes 5, id_to_bytes 7)] := rfl
  rw [DbWF]
  refine ⟨?_, ?_, ?_, ?_, ?_, ?_, ?_, ?_⟩
  · rw [TreeSorted]
    decide
  · rw [TreeSorted]
    decide
  · rw [TreeSorted]
    decide
  · decide
  · intro e he b hb
    rw [htree] at he
    rw [List.mem_singleton.mp he] at hb
    exact Option.noConfusion hb
  · intro e he
    rw [hcktree] at he
    rw [List.mem_singleton.mp he]
    exact ⟨7, by norm_num, rfl⟩
  · decide
  · decide
